import Mathlib

/-!
Verification of `historical_stock_growth.py`: a shallow embedding of the
script's period resolution (`get_dates`), trading-day correction
(`check_dates`), price fetching (`get_prices`), return calculation
(`calculate_returns` / `calculate_return_row` / `calculate_return`) and table
assembly, together with theorems about them.

Modelling conventions:
  * Python floats are modelled by rationals `ℚ`; the `np.NaN` missing-value
    marker is modelled by a dedicated `Cell.nan` constructor (for DataFrame
    cells) or by `Option.none` (for raw close-price lists).
  * `YYYY-MM-DD` date strings are modelled either by their character lists
    (where the script manipulates them as strings: sorting, column labels) or
    by a civil `(year, month, day)` structure (where the script does calendar
    arithmetic), or by their day number relative to 1970-01-01 (where the
    script only steps dates by whole days and takes weekdays, as in
    `check_dates`; `datetime.weekday()` of day number `n` is `(n + 3) % 7`
    since 1970-01-01 was a Thursday).
-/

namespace HSG

/-- Cells of the pandas DataFrame built by the script: a string (the ticker
column), a numeric value (prices and returns), or the `np.NaN` missing-value
marker recorded at source line 111. -/
inductive Cell where
  | str : String → Cell
  | num : ℚ → Cell
  | nan : Cell
deriving DecidableEq, Repr

/-- Model of `calculate_return` (source lines 172-174):
`(current_val - initial_val) / initial_val * 100`. -/
def calculate_return (current_val initial_val : ℚ) : ℚ :=
  (current_val - initial_val) / initial_val * 100

/-- Elementwise application of `calculate_return` to DataFrame cells, as
performed inside `calculate_return_row`: float arithmetic involving `np.NaN`
yields `np.NaN`, so a missing close price produces a missing return. -/
def calcCell (current : Cell) (close : Cell) : Cell :=
  match current, close with
  | Cell.num c, Cell.num p => Cell.num (calculate_return c p)
  | _, _ => Cell.nan

/-- Model of the value part of `calculate_return_row` (source lines 160-169):
`current_price = row[1]`, `close_prices = row[2:]`, and
`returns = [calculate_return(current_price, cp) for cp in close_prices]`. -/
def calculate_return_row (current : Cell) (close_prices : List Cell) : List Cell :=
  close_prices.map (calcCell current)

/-! ## Trading-day correction (`check_dates`, source lines 125-139)

Dates are modelled by their day numbers relative to 1970-01-01. Stepping a
date back by one calendar day (`timedelta(days=1)` at source line 134) is
subtracting 1; `datetime.weekday()` of day number `n` is `(n + 3) % 7`
(1970-01-01 was a Thursday, weekday 3); the market-holiday strings of source
lines 127-128 become a finite list of day numbers. -/

/-- Weekday of day number `n`, following Python's `datetime.weekday()`:
0 for Monday through 6 for Sunday. -/
def weekday (n : ℤ) : ℤ := (n + 3) % 7

/-- Negation of the loop condition at source line 132: the `while` loop of
`check_dates` continues while the date is in `market_holidays` or its
weekday is greater than 4 (Saturday or Sunday). -/
def isTradingDay (holidays : List ℤ) (n : ℤ) : Prop :=
  n ∉ holidays ∧ weekday n ≤ 4

instance (holidays : List ℤ) (n : ℤ) : Decidable (isTradingDay holidays n) := by
  unfold isTradingDay
  infer_instance

/-- Backward walk of the `while` loop of `check_dates` (source lines
132-135), written with explicit fuel: while the current date is a weekend day
or a market holiday, replace it with the previous calendar day. `checkDate`
supplies fuel that always suffices (`checkDateFuel_spec` and
`exists_trading_within_fuel`), so the fuel clause is never the reason the
walk stops. -/
def checkDateFuel (holidays : List ℤ) : ℕ → ℤ → ℤ
  | 0, n => n
  | f + 1, n => if isTradingDay holidays n then n else checkDateFuel holidays f (n - 1)

/-- Fuel sufficient for the backward walk from day `n`: stepping below every
holiday takes at most `(n - h) + 1` steps for the holiday `h`, and among any
7 consecutive days one is a Monday. -/
def fuelFor (holidays : List ℤ) (n : ℤ) : ℕ :=
  7 + (holidays.map (fun h => (n - h).toNat + 1)).sum

/-- Correction of a single date: the full `while` loop of `check_dates`. -/
def checkDate (holidays : List ℤ) (n : ℤ) : ℤ :=
  checkDateFuel holidays (fuelFor holidays n) n

/-- Model of `check_dates` (source lines 125-139): every date of the input
list is corrected in place, so order and length are preserved. -/
def check_dates (holidays : List ℤ) (dates : List ℤ) : List ℤ :=
  dates.map (checkDate holidays)

/-! ## Civil dates and the period resolver (`get_dates`, source lines 58-70)

Here the script does calendar arithmetic (`timedelta(days=...)`,
`relativedelta(years=...)`) and then serializes with
`strftime('%Y-%m-%d')` and sorts the resulting strings, so dates are
modelled by a `(year, month, day)` structure plus a serialization to
character lists. Python string comparison is code-point lexicographic, which
is exactly the `LinearOrder (List Char)` order. -/

/-- A proleptic-Gregorian calendar day, as held by a Python `datetime` with
the time part ignored. -/
structure CivilDate where
  year : ℕ
  month : ℕ
  day : ℕ
deriving DecidableEq, Repr

/-- Gregorian leap-year rule. -/
def isLeapYear (y : ℕ) : Bool :=
  (y % 4 == 0 && y % 100 != 0) || y % 400 == 0

/-- Number of days in a month of a given year. -/
def daysInMonth (y m : ℕ) : ℕ :=
  if m = 2 then (if isLeapYear y then 29 else 28)
  else if m = 4 ∨ m = 6 ∨ m = 9 ∨ m = 11 then 30
  else 31

/-- A date a Python `datetime` can actually hold. -/
def isValidDate (d : CivilDate) : Prop :=
  1 ≤ d.year ∧ 1 ≤ d.month ∧ d.month ≤ 12 ∧ 1 ≤ d.day ∧ d.day ≤ daysInMonth d.year d.month

instance (d : CivilDate) : Decidable (isValidDate d) := by
  unfold isValidDate
  infer_instance

/-- The previous calendar day. -/
def prevDay (d : CivilDate) : CivilDate :=
  if 2 ≤ d.day then ⟨d.year, d.month, d.day - 1⟩
  else if 2 ≤ d.month then ⟨d.year, d.month - 1, daysInMonth d.year (d.month - 1)⟩
  else ⟨d.year - 1, 12, 31⟩

/-- The next calendar day. -/
def nextDay (d : CivilDate) : CivilDate :=
  if d.day < daysInMonth d.year d.month then ⟨d.year, d.month, d.day + 1⟩
  else if d.month < 12 then ⟨d.year, d.month + 1, 1⟩
  else ⟨d.year + 1, 1, 1⟩

/-- Model of `datetime.today() - timedelta(days=num_days)` (source line 63):
shift `today` by whole calendar days; a negative count shifts forward. -/
def subDays (d : CivilDate) (n : ℤ) : CivilDate :=
  if 0 ≤ n then prevDay^[n.toNat] d else nextDay^[(-n).toNat] d

/-- Model of `datetime.today() - relativedelta(years=num_years)` (source
line 65): calendar-aware year subtraction: the year is shifted by `n` and the
day-of-month is clamped to the length of the resulting month, so Feb 29 minus
one year in a non-leap target year gives Feb 28. (Python raises below year 1;
the model truncates the year at 0 there, a range no claim exercises.) -/
def subYears (d : CivilDate) (n : ℤ) : CivilDate :=
  let y : ℕ := ((d.year : ℤ) - n).toNat
  ⟨y, d.month, min d.day (daysInMonth y d.month)⟩

/-- One decimal digit as a character. -/
def digitChar (k : ℕ) : Char :=
  match k with
  | 0 => '0'
  | 1 => '1'
  | 2 => '2'
  | 3 => '3'
  | 4 => '4'
  | 5 => '5'
  | 6 => '6'
  | 7 => '7'
  | 8 => '8'
  | _ => '9'

/-- Two-digit zero-padded decimal rendering (`%m`, `%d`). -/
def pad2 (n : ℕ) : List Char := [digitChar (n / 10), digitChar (n % 10)]

/-- Four-digit zero-padded decimal rendering (`%Y`, for years up to 9999). -/
def pad4 (n : ℕ) : List Char :=
  [digitChar (n / 1000), digitChar (n / 100 % 10), digitChar (n / 10 % 10), digitChar (n % 10)]

/-- Model of `date.strftime('%Y-%m-%d')` (source line 67). -/
def strftimeYMD (d : CivilDate) : List Char :=
  pad4 d.year ++ ('-' :: (pad2 d.month ++ ('-' :: pad2 d.day)))

/-- Descending (most-recent-first) order on serialized dates and on column
labels: `a` comes before `b` when `b ≤ a` in code-point lexicographic order.
`list.sort(reverse=True)` (source line 68) and
`sort_index(axis=1, ascending=False)` (source line 148) sort by exactly this
order; `insertionSort` with this relation models them (both are stable, and
on the lists compared in the theorems below the order is total, transitive
and antisymmetric, so any sorted permutation is unique). -/
def descLabel (a b : List Char) : Prop := b ≤ a

instance : DecidableRel descLabel := fun a b => inferInstanceAs (Decidable (b ≤ a))

instance : IsTotal (List Char) descLabel := ⟨fun a b => le_total b a⟩

instance : IsTrans (List Char) descLabel := ⟨fun _ _ _ h1 h2 => le_trans h2 h1⟩

instance : IsAntisymm (List Char) descLabel := ⟨fun _ _ h1 h2 => le_antisymm h2 h1⟩

/-- Model of `get_dates` (source lines 58-70) at a fixed `today`: one date
per day-count specifier, then one per year-count specifier, serialized to
`YYYY-MM-DD` strings and sorted most-recent-first (`sort(reverse=True)`).
The sort does not remove duplicates. -/
def get_dates (today : CivilDate) (day_periods year_periods : List ℤ) : List (List Char) :=
  List.insertionSort descLabel
    (day_periods.map (fun n => strftimeYMD (subDays today n))
      ++ year_periods.map (fun n => strftimeYMD (subYears today n)))

/-- Chronological strict order on civil dates. -/
def dateLt (a b : CivilDate) : Prop :=
  a.year < b.year
    ∨ (a.year = b.year ∧ (a.month < b.month ∨ (a.month = b.month ∧ a.day < b.day)))

/-! ## Price fetching (`get_prices`, source lines 84-121) and table assembly

The external market-data provider is a parameter: `history t d e` is the
close price `yf.Ticker(t).history(start=d, end=e)` returns for the half-open
interval `[d, e)` (`none` models an empty result), and `info t` is
`yf.Ticker(t).info['regularMarketPrice']` (`none` models the uncaught
not-found error for a delisted/invalid ticker, which aborts the run — the
`Except` error case). Dates are day numbers; `int(strptime(date).timestamp())`
of day number `d` is modelled as `86400 * d` (midnight of that day), so the
`± 3 days` link bounds of source lines 107-108 are `86400 * d ∓ 259200`. -/

/-- One row assembled by `get_prices` (source line 115): the ticker, its
current price, and one close price (or missing marker) per date. -/
structure PRow where
  ticker : String
  current : ℚ
  closes : List (Option ℚ)
deriving DecidableEq, Repr

/-- Diagnostic message printed by `get_prices` when a date interval comes
back empty (source lines 106-109): the ticker, the (unchanged) date, and the
two link timestamps `timestamp - 3 days` and `timestamp + 3 days`. -/
structure LogEntry where
  ticker : String
  date : ℤ
  period1 : ℤ
  period2 : ℤ
deriving DecidableEq, Repr

/-- The diagnostic entry logged for ticker `t` and day `d`. -/
def mkLog (t : String) (d : ℤ) : LogEntry :=
  ⟨t, d, 86400 * d - 259200, 86400 * d + 259200⟩

/-- A fetched close price as a DataFrame cell: a number, or `np.NaN` when
the provider returned no data. -/
def optCell : Option ℚ → Cell
  | some q => Cell.num q
  | none => Cell.nan

/-- Row-building loop of `get_prices` (source lines 93-115): for each ticker
in order, query each date's half-open interval `[d, d+1)` (the `end_dates`
of line 87 are `d + 1`), recording the close value or `np.NaN` plus a
diagnostic log entry; then fetch the ticker's current price, which, if the
lookup raises (modelled by `info t = none`), aborts the whole run
uncaught. -/
def fetchRows (history : String → ℤ → ℤ → Option ℚ) (info : String → Option ℚ)
    (dates : List ℤ) : List String → Except String (List PRow × List LogEntry)
  | [] => Except.ok ([], [])
  | t :: ts =>
    let closes := dates.map (fun d => history t d (d + 1))
    let logs := dates.filterMap (fun d =>
      if (history t d (d + 1)).isNone then some (mkLog t d) else none)
    match info t with
    | none => Except.error t
    | some c =>
      match fetchRows history info dates ts with
      | Except.error e => Except.error e
      | Except.ok (rows, ls) => Except.ok (⟨t, c, closes⟩ :: rows, logs ++ ls)

/-- A DataFrame, as its list of columns in order: each column is a label
(character list) with its cells, one per row. -/
abbrev Table := List (List Char × List Cell)

/-- The `' close'` suffix appended to date column labels (source line 118). -/
def closeSuffix : List Char := " close".data

/-- Column layout of the DataFrame returned by `get_prices` (source lines
89-91 and 117-119): `ticker`, the wall-clock-timestamped current-price
column, then one close-price column per date labelled `<date> close`. -/
def mkPricesTable (curLabel : List Char) (dateLabels : List (List Char))
    (rows : List PRow) : Table :=
  ("ticker".data, rows.map (fun r => Cell.str r.ticker))
    :: (curLabel, rows.map (fun r => Cell.num r.current))
    :: dateLabels.enum.map (fun p =>
         (p.2 ++ closeSuffix, rows.map (fun r => optCell ((r.closes.get? p.1).getD none))))

/-- Model of `get_prices` (source lines 84-121): run the fetch loop and
assemble the DataFrame; an uncaught not-found error on any ticker's
current-price lookup aborts everything. -/
def get_prices (history : String → ℤ → ℤ → Option ℚ) (info : String → Option ℚ)
    (curLabel : List Char) (dateLabels : List (List Char)) (dates : List ℤ)
    (tickers : List String) : Except String (Table × List LogEntry) :=
  match fetchRows history info dates tickers with
  | Except.error e => Except.error e
  | Except.ok (rows, logs) => Except.ok (mkPricesTable curLabel dateLabels rows, logs)

/-- Check whether `pat` is an initial segment of `s`. -/
def beginsWith : List Char → List Char → Bool
  | [], _ => true
  | _ :: _, [] => false
  | p :: ps, c :: cs => p == c && beginsWith ps cs

/-- Scanning loop of Python's `str.replace` for a nonempty pattern
`p :: ps`: replace every occurrence by `repl`, scanning left to right. The
numeric argument is structural fuel: every step consumes one unit and at
least one character, so fuel equal to the scanned list's length (as supplied
by `replaceAll`) never runs out. -/
def replaceAllFuel (p : Char) (ps repl : List Char) : ℕ → List Char → List Char
  | 0, s => s
  | _ + 1, [] => []
  | f + 1, c :: cs =>
    if beginsWith (p :: ps) (c :: cs)
    then repl ++ replaceAllFuel p ps repl f (cs.drop ps.length)
    else c :: replaceAllFuel p ps repl f cs

/-- Model of `label.replace('close', 'return')` (source line 166). -/
def replaceAll (pat repl s : List Char) : List Char :=
  match pat with
  | [] => s
  | p :: ps => replaceAllFuel p ps repl s.length s

/-- Every other element of a list, starting with the first: Python's
`[2::2]` / `[3::2]` slices (source lines 151-152) are `everyOther` after
dropping 2 or 3 elements. -/
def everyOther {α : Type} : List α → List α
  | [] => []
  | [a] => [a]
  | a :: _ :: rest => a :: everyOther rest

/-- Column selection by label, as in `df[cols]`: the first column bearing
the label (labels are pairwise distinct in every run the claims cover). -/
def selectCol (df : Table) (lab : List Char) : List Char × List Cell :=
  (df.find? (fun col => col.1 == lab)).getD (lab, [])

/-- Model of `df[reordered_cols]` (source line 155). -/
def selectCols (df : Table) (labels : List (List Char)) : Table :=
  labels.map (selectCol df)

/-- Model of `calculate_returns` (source lines 142-157). The row-wise
`df.apply(calculate_return_row, axis=1)` of line 145 produces one return
column per close column: its label replaces `close` by `return` (line 166)
and its cells apply `calculate_return` to the row's current price (`row[1]`)
and close cell (`row[2:]`), which column-wise is `zipWith calcCell` of the
current-price column with the close column. The two frames are concatenated
column-wise and the columns sorted by label in descending order
(`pd.concat(...).sort_index(axis=1, ascending=False)`, line 148); finally
the columns are re-selected as the first two followed by interleaved
(close, return) pairs (lines 151-155). -/
def calculate_returns (df : Table) : Table :=
  let curCells : List Cell := ((df.get? 1).getD ([], [])).2
  let returns_df : Table := (df.drop 2).map (fun col =>
    (replaceAll "close".data "return".data col.1, List.zipWith calcCell curCells col.2))
  let sorted := List.insertionSort (fun a b => descLabel a.1 b.1) (df ++ returns_df)
  let labels := sorted.map Prod.fst
  let return_cols := everyOther (labels.drop 2)
  let close_cols := everyOther (labels.drop 3)
  let reordered := labels.take 2
    ++ (close_cols.zip return_cols).flatMap (fun p => [p.1, p.2])
  selectCols sorted reordered

/-- Model of `append_period_headers` (source lines 177-201): the function
computes a row of human-readable period labels from the column dates (lines
181-193) and builds a one-row frame from it (line 195), but the statement
that would attach that row to the table (line 197) is commented out, so the
input frame is returned unchanged. The computed headers are dead local
values with no observable effect and are therefore not part of the model. -/
def append_period_headers (df : Table) : Table := df

/-- Check whether `suf` is a final segment of `s` (Python's `endswith`). -/
def endsWithCl (suf s : List Char) : Bool :=
  decide (suf.length ≤ s.length) && (s.drop (s.length - suf.length) == suf)

/-- Model of `drop_close_prices` (source lines 204-212): when the
include-close-prices flag is unset, keep only the columns whose label does
not end in `close`. -/
def drop_close_prices (include_close_prices : Bool) (df : Table) : Table :=
  if include_close_prices then df
  else df.filter (fun col => !(endsWithCl "close".data col.1))

/-- Day-number-to-civil conversion (Howard Hinnant's `civil_from_days`),
used to render the `YYYY-MM-DD` label of a day-numbered date. -/
def civilFromDays (n : ℤ) : CivilDate :=
  let z := n + 719468
  let era := Int.fdiv z 146097
  let doe := (z - era * 146097).toNat
  let yoe := (doe - doe / 1460 + doe / 36524 - doe / 146096) / 365
  let doy := doe - (365 * yoe + yoe / 4 - yoe / 100)
  let mp := (5 * doy + 2) / 153
  let d := doy - (153 * mp + 2) / 5 + 1
  let m := if mp < 10 then mp + 3 else mp - 9
  let y : ℤ := (yoe : ℤ) + era * 400 + (if m ≤ 2 then 1 else 0)
  ⟨y.toNat, m, d⟩

/-- The `YYYY-MM-DD` string of a day-numbered date. -/
def dayToStr (n : ℤ) : List Char := strftimeYMD (civilFromDays n)

/-- Model of `main` from the date-correction step onward (source lines
234-242): correct the dates for weekends and holidays, fetch prices (which
aborts the run on an uncaught not-found error), compute returns, run the
(identity) period-header step, and optionally drop close-price columns. The
successful result is the table handed to `dfs_to_csv`; on error nothing
reaches the writer. -/
def mainModel (history : String → ℤ → ℤ → Option ℚ) (info : String → Option ℚ)
    (holidays : List ℤ) (dates : List ℤ) (tickers : List String)
    (curLabel : List Char) (include_close_prices : Bool) : Except String Table :=
  match get_prices history info curLabel ((check_dates holidays dates).map dayToStr)
      (check_dates holidays dates) tickers with
  | Except.error e => Except.error e
  | Except.ok (df, _logs) =>
    Except.ok (drop_close_prices include_close_prices
      (append_period_headers (calculate_returns df)))

/-- The content written to the output CSV file: `dfs_to_csv` (source lines
215-220, called at line 242) runs only when the pipeline reaches it, i.e.
only on a successful run. -/
def writtenCSV (history : String → ℤ → ℤ → Option ℚ) (info : String → Option ℚ)
    (holidays : List ℤ) (dates : List ℤ) (tickers : List String)
    (curLabel : List Char) (include_close_prices : Bool) : Option Table :=
  (mainModel history info holidays dates tickers curLabel include_close_prices).toOption

/-! ## Theorems -/

/-- Claim C1: for every current price `c` and present close price `p` the
computed percentage return equals `(c - p) / p * 100`; in particular current
110 against close 100 gives `10.0`, and current 90 against close 100 gives
`-10.0`. -/
theorem claim_C1_return_formula :
    (∀ c p : ℚ, calculate_return c p = (c - p) / p * 100)
      ∧ calculate_return 110 100 = 10 ∧ calculate_return 90 100 = -10 :=
  ⟨fun _ _ => rfl, by norm_num [calculate_return], by norm_num [calculate_return]⟩

/-- Claim C2: in a report row (current price numeric, close-price cells each
either numeric or the NaN marker, as produced by `get_prices`), the computed
return for a period slot is a numeric value exactly when the close price for
that slot is; a missing close never yields a default numeric return. -/
theorem claim_C2_return_present_iff_close_present
    (c : ℚ) (close_prices : List Cell)
    (hcells : ∀ x ∈ close_prices, x = Cell.nan ∨ ∃ q, x = Cell.num q)
    (j : ℕ) :
    (∃ q, (calculate_return_row (Cell.num c) close_prices).get? j = some (Cell.num q))
      ↔ (∃ q, close_prices.get? j = some (Cell.num q)) := by
  unfold calculate_return_row
  rw [List.get?_map]
  cases hj : close_prices.get? j with
  | none => simp
  | some x =>
    have hx : x ∈ close_prices := List.get?_mem hj
    rcases hcells x hx with rfl | ⟨q, rfl⟩
    · simp [calcCell]
    · simp [calcCell]

/-- Witness for claim C2 at a concrete row: current price 110, close prices
`[100, NaN]`, slot 1 (the NaN slot). -/
theorem claim_C2_witness :
    (∃ q, (calculate_return_row (Cell.num 110) [Cell.num 100, Cell.nan]).get? 1
        = some (Cell.num q))
      ↔ (∃ q, ([Cell.num 100, Cell.nan] : List Cell).get? 1 = some (Cell.num q)) :=
  claim_C2_return_present_iff_close_present 110 [Cell.num 100, Cell.nan]
    (by
      intro x hx
      simp only [List.mem_cons, List.not_mem_nil, or_false] at hx
      rcases hx with rfl | rfl
      · exact Or.inr ⟨100, rfl⟩
      · exact Or.inl rfl)
    1

/-- Within `fuelFor holidays n` backward steps from `n` there is a trading
day: far enough back every day is below every holiday, and any run of 7
consecutive days contains a Monday. -/
theorem exists_trading_within_fuel (holidays : List ℤ) (n : ℤ) :
    ∃ k : ℕ, k < fuelFor holidays n ∧ isTradingDay holidays (n - k) := by
  set B : ℕ := (holidays.map (fun h => (n - h).toNat + 1)).sum with hB
  have h0 : (0 : ℤ) ≤ (n + 3 - B) % 7 := Int.emod_nonneg _ (by norm_num)
  have h7 : (n + 3 - (B : ℤ)) % 7 < 7 := Int.emod_lt_of_pos _ (by norm_num)
  have hr : (((n + 3 - (B : ℤ)) % 7).toNat : ℤ) = (n + 3 - B) % 7 := Int.toNat_of_nonneg h0
  refine ⟨B + ((n + 3 - B) % 7).toNat, ?_, ?_, ?_⟩
  · unfold fuelFor
    rw [← hB]
    omega
  · intro hmem
    have hmap : ((n : ℤ) - (n - ((B : ℕ) + ((n + 3 - (B : ℤ)) % 7).toNat : ℕ))).toNat + 1
        ∈ holidays.map (fun h => (n - h).toNat + 1) :=
      List.mem_map_of_mem _ hmem
    have hle := List.single_le_sum (fun x _ => Nat.zero_le x) _ hmap
    rw [← hB] at hle
    omega
  · unfold weekday
    omega

/-- Postcondition of the fuelled backward walk, provided a trading day is
reachable within the fuel: the result is a trading day, it is not after the
input, and no day strictly between the result and the input is a trading
day. This is exactly the meaning of the source's `while` loop. -/
theorem checkDateFuel_spec (holidays : List ℤ) :
    ∀ (f : ℕ) (n : ℤ), (∃ k : ℕ, k < f ∧ isTradingDay holidays (n - k)) →
      isTradingDay holidays (checkDateFuel holidays f n)
      ∧ checkDateFuel holidays f n ≤ n
      ∧ ∀ m : ℤ, checkDateFuel holidays f n < m → m ≤ n → ¬ isTradingDay holidays m := by
  intro f
  induction f with
  | zero =>
    intro n h
    rcases h with ⟨k, hk, _⟩
    omega
  | succ f ih =>
    intro n h
    by_cases htr : isTradingDay holidays n
    · have hres : checkDateFuel holidays (f + 1) n = n := by
        simp [checkDateFuel, htr]
      rw [hres]
      exact ⟨htr, le_refl n, fun m h1 h2 => absurd (lt_of_lt_of_le h1 h2) (lt_irrefl n)⟩
    · have hstep : checkDateFuel holidays (f + 1) n = checkDateFuel holidays f (n - 1) := by
        simp [checkDateFuel, htr]
      rcases h with ⟨k, hk, hktr⟩
      have hk0 : k ≠ 0 := by
        intro h0
        rw [h0] at hktr
        simp at hktr
        exact htr hktr
      have hex : ∃ k' : ℕ, k' < f ∧ isTradingDay holidays (n - 1 - k') := by
        refine ⟨k - 1, by omega, ?_⟩
        have : n - 1 - ((k : ℤ) - 1) = n - k := by ring
        have hcast : ((k - 1 : ℕ) : ℤ) = (k : ℤ) - 1 := by omega
        rw [hcast, this]
        exact hktr
      rcases ih (n - 1) hex with ⟨h1, h2, h3⟩
      rw [hstep]
      refine ⟨h1, by omega, ?_⟩
      intro m hm1 hm2
      by_cases hmn : m ≤ n - 1
      · exact h3 m hm1 hmn
      · have : m = n := by omega
        rw [this]
        exact htr

/-- Postcondition of `checkDate`: it returns the nearest preceding (inclusive)
day that is neither a Saturday, a Sunday, nor a market holiday. -/
theorem checkDate_spec (holidays : List ℤ) (n : ℤ) :
    isTradingDay holidays (checkDate holidays n)
    ∧ checkDate holidays n ≤ n
    ∧ ∀ m : ℤ, checkDate holidays n < m → m ≤ n → ¬ isTradingDay holidays m :=
  checkDateFuel_spec holidays (fuelFor holidays n) n (exists_trading_within_fuel holidays n)

/-- A fuelled walk started at a trading day stops immediately (the loop
condition fails on entry), for any positive fuel. -/
theorem checkDateFuel_of_trading (holidays : List ℤ) (f : ℕ) (n : ℤ)
    (hf : f ≠ 0) (h : isTradingDay holidays n) : checkDateFuel holidays f n = n := by
  cases f with
  | zero => exact absurd rfl hf
  | succ f => simp [checkDateFuel, h]

/-- Correcting an already corrected date changes nothing. -/
theorem checkDate_idem (holidays : List ℤ) (n : ℤ) :
    checkDate holidays (checkDate holidays n) = checkDate holidays n := by
  have htr := (checkDate_spec holidays n).1
  unfold checkDate fuelFor
  exact checkDateFuel_of_trading holidays _ _ (by omega) htr

/-- Claim C7: `check_dates` corrects each date, in input order, to the nearest
preceding day that is neither a Saturday, a Sunday, nor in the configured
exchange's holiday set; a Saturday whose preceding Friday is not a holiday is
corrected to that Friday, and a holiday is corrected to a strictly earlier
day (hence, by minimality, to the nearest preceding non-holiday weekday). -/
theorem claim_C7_trading_day_correction (holidays : List ℤ) (dates : List ℤ) :
    check_dates holidays dates = dates.map (checkDate holidays)
    ∧ (∀ n : ℤ, isTradingDay holidays (checkDate holidays n)
        ∧ checkDate holidays n ≤ n
        ∧ ∀ m : ℤ, checkDate holidays n < m → m ≤ n → ¬ isTradingDay holidays m)
    ∧ (∀ n : ℤ, weekday n = 5 → (n - 1) ∉ holidays → checkDate holidays n = n - 1)
    ∧ (∀ n : ℤ, n ∈ holidays → checkDate holidays n < n) := by
  refine ⟨rfl, fun n => checkDate_spec holidays n, ?_, ?_⟩
  · intro n hsat hfri
    rcases checkDate_spec holidays n with ⟨htr, hle, hmin⟩
    have hfri_tr : isTradingDay holidays (n - 1) := by
      refine ⟨hfri, ?_⟩
      unfold weekday at hsat ⊢
      omega
    have hne : checkDate holidays n ≠ n := by
      intro he
      rcases htr with ⟨_, hw⟩
      rw [he] at hw
      unfold weekday at hw hsat
      omega
    by_contra hne1
    have hlt : checkDate holidays n < n - 1 := by
      have := hle
      omega
    exact hmin (n - 1) hlt (by omega) hfri_tr
  · intro n hmem
    rcases checkDate_spec holidays n with ⟨⟨hnotmem, _⟩, hle, _⟩
    rcases lt_or_eq_of_le hle with h | h
    · exact h
    · rw [h] at hnotmem
      exact absurd hmem hnotmem

/-- Witness for claim C7: with day 0 (Thursday 1970-01-01) as the only
holiday, day 2 (Saturday 1970-01-03) is corrected to day 1 (Friday), the
holiday itself is corrected to a strictly earlier day, and a plain Monday
(day 4) is already a trading day. -/
theorem claim_C7_witness :
    checkDate [0] 2 = 1 ∧ checkDate [0] 0 < 0 ∧ isTradingDay [0] (checkDate [0] 4) := by
  have h := claim_C7_trading_day_correction [0] []
  exact ⟨h.2.2.1 2 (by decide) (by decide), h.2.2.2 0 (by decide), (h.2.1 4).1⟩

/-- Claim C8: trading-day correction is idempotent on every list of dates:
applying `check_dates` twice yields exactly the list obtained by applying it
once. -/
theorem claim_C8_correction_idempotent (holidays : List ℤ) (dates : List ℤ) :
    check_dates holidays (check_dates holidays dates) = check_dates holidays dates := by
  unfold check_dates
  rw [List.map_map]
  apply List.map_congr_left
  intro n _
  exact checkDate_idem holidays n

/-- Every month has at least 28 days. -/
theorem daysInMonth_ge (y m : ℕ) : 28 ≤ daysInMonth y m := by
  unfold daysInMonth
  split
  · split <;> omega
  · split <;> omega

/-- Claim C5: `get_dates` produces exactly one date per specifier, namely
`today - n` calendar days for each plain day count and `today - n` calendar
years (calendar-aware) for each year count (the sort only reorders them);
year subtraction across a leap boundary lands on a valid date, e.g. one year
before 2024-02-29 is 2023-02-28, and in general `subYears` of a valid date is
valid whenever the target year is at least 1. -/
theorem claim_C5_period_resolution (today : CivilDate) (dps yps : List ℤ)
    (hv : isValidDate today) :
    List.Perm (get_dates today dps yps)
        (dps.map (fun n => strftimeYMD (subDays today n))
            ++ yps.map (fun n => strftimeYMD (subYears today n)))
    ∧ subYears ⟨2024, 2, 29⟩ 1 = ⟨2023, 2, 28⟩
    ∧ isValidDate (subYears ⟨2024, 2, 29⟩ 1)
    ∧ ∀ n : ℤ, 1 ≤ (today.year : ℤ) - n → isValidDate (subYears today n) := by
  refine ⟨List.perm_insertionSort descLabel _, by decide, by decide, ?_⟩
  intro n hn
  rcases hv with ⟨hy, hm1, hm2, hd1, hd2⟩
  have hmin : 28 ≤ daysInMonth (((today.year : ℤ) - n).toNat) today.month :=
    daysInMonth_ge _ _
  unfold subYears isValidDate
  simp only
  omega

/-- Witness for claim C5 at `today = 2024-02-29`, day periods `[30]`, year
periods `[1]`. -/
theorem claim_C5_witness :
    List.Perm (get_dates ⟨2024, 2, 29⟩ [30] [1])
        ([30].map (fun n => strftimeYMD (subDays ⟨2024, 2, 29⟩ n))
            ++ [1].map (fun n => strftimeYMD (subYears ⟨2024, 2, 29⟩ n)))
    ∧ subYears ⟨2024, 2, 29⟩ 1 = ⟨2023, 2, 28⟩
    ∧ isValidDate (subYears ⟨2024, 2, 29⟩ 1)
    ∧ ∀ n : ℤ, 1 ≤ ((2024 : ℕ) : ℤ) - n → isValidDate (subYears ⟨2024, 2, 29⟩ n) :=
  claim_C5_period_resolution ⟨2024, 2, 29⟩ [30] [1] (by decide)

/-- Comparing digits below 10 agrees with comparing their characters. -/
theorem digitChar_lt_iff {k1 k2 : ℕ} (h1 : k1 < 10) (h2 : k2 < 10) :
    digitChar k1 < digitChar k2 ↔ k1 < k2 := by
  interval_cases k1 <;> interval_cases k2 <;> decide

/-- A strict lexicographic comparison decided within a common length is
preserved by appending arbitrary tails. -/
theorem lex_append_eqlen {a b : List Char} (hlen : a.length = b.length)
    (h : List.Lex (· < ·) a b) :
    ∀ x y : List Char, List.Lex (· < ·) (a ++ x) (b ++ y) := by
  induction h with
  | nil => simp at hlen
  | @rel c cs c' cs' hcc => exact fun x y => List.Lex.rel hcc
  | @cons c cs cs' hcs ih =>
    intro x y
    exact List.Lex.cons (ih (by simpa using hlen) x y)

/-- Two-digit zero-padded rendering is strictly monotone below 100. -/
theorem pad2_lt {m1 m2 : ℕ} (h2 : m2 ≤ 99) (h : m1 < m2) :
    List.Lex (· < ·) (pad2 m1) (pad2 m2) := by
  unfold pad2
  rcases Nat.lt_or_ge (m1 / 10) (m2 / 10) with hq | hq
  · exact List.Lex.rel ((digitChar_lt_iff (by omega) (by omega)).mpr hq)
  · have hq' : m1 / 10 = m2 / 10 := by omega
    rw [hq']
    exact List.Lex.cons (List.Lex.rel ((digitChar_lt_iff (by omega) (by omega)).mpr (by omega)))

/-- Four-digit zero-padded rendering is strictly monotone below 10000. -/
theorem pad4_lt {y1 y2 : ℕ} (h2 : y2 ≤ 9999) (h : y1 < y2) :
    List.Lex (· < ·) (pad4 y1) (pad4 y2) := by
  unfold pad4
  rcases Nat.lt_or_ge (y1 / 1000) (y2 / 1000) with hq | hq
  · exact List.Lex.rel ((digitChar_lt_iff (by omega) (by omega)).mpr hq)
  · have e3 : y1 / 1000 = y2 / 1000 := by omega
    rw [e3]
    refine List.Lex.cons ?_
    rcases Nat.lt_or_ge (y1 / 100 % 10) (y2 / 100 % 10) with hq2 | hq2
    · exact List.Lex.rel ((digitChar_lt_iff (by omega) (by omega)).mpr hq2)
    · have e2 : y1 / 100 % 10 = y2 / 100 % 10 := by omega
      rw [e2]
      refine List.Lex.cons ?_
      rcases Nat.lt_or_ge (y1 / 10 % 10) (y2 / 10 % 10) with hq1 | hq1
      · exact List.Lex.rel ((digitChar_lt_iff (by omega) (by omega)).mpr hq1)
      · have e1 : y1 / 10 % 10 = y2 / 10 % 10 := by omega
        rw [e1]
        exact List.Lex.cons
          (List.Lex.rel ((digitChar_lt_iff (by omega) (by omega)).mpr (by omega)))

/-- On dates whose components fit their zero-padded fields, `YYYY-MM-DD`
string comparison agrees with chronological comparison. -/
theorem strftimeYMD_lt {a b : CivilDate} (hb : b.year ≤ 9999)
    (hmb : b.month ≤ 99) (hdb : b.day ≤ 99)
    (h : dateLt a b) : List.Lex (· < ·) (strftimeYMD a) (strftimeYMD b) := by
  unfold strftimeYMD
  rcases h with hy | ⟨hy, hm | ⟨hm, hd⟩⟩
  · exact lex_append_eqlen (by simp [pad4]) (pad4_lt hb hy) _ _
  · rw [hy]
    refine List.Lex.append_left _ ?_ _
    exact List.Lex.cons (lex_append_eqlen (by simp [pad2]) (pad2_lt hmb hm) _ _)
  · rw [hy, hm]
    refine List.Lex.append_left _ ?_ _
    refine List.Lex.cons ?_
    refine List.Lex.append_left _ ?_ _
    exact List.Lex.cons (pad2_lt hdb hd)

/-- Claim C6, amended: the list produced by `get_dates` is sorted
most-recent-first (descending `YYYY-MM-DD` string order, which coincides with
chronological order for dates whose components fit their zero-padded fields),
but duplicates are NOT removed: the sort keeps one entry per specifier, so
two specifiers resolving to the same calendar date yield two identical
entries. -/
theorem claim_C6_sorted_most_recent_first (today : CivilDate) (dps yps : List ℤ) :
    List.Sorted descLabel (get_dates today dps yps)
    ∧ (get_dates today dps yps).length = dps.length + yps.length
    ∧ List.Pairwise
        (fun s1 s2 => ∀ d1 d2 : CivilDate,
          d2.year ≤ 9999 → d2.month ≤ 99 → d2.day ≤ 99 →
          strftimeYMD d1 = s1 → strftimeYMD d2 = s2 → ¬ dateLt d1 d2)
        (get_dates today dps yps) := by
  have hs : List.Sorted descLabel (get_dates today dps yps) :=
    List.sorted_insertionSort descLabel _
  refine ⟨hs, ?_, ?_⟩
  · unfold get_dates
    rw [List.length_insertionSort]
    simp
  · refine hs.imp ?_
    intro s1 s2 hle d1 d2 hy hm hd h1 h2 hlt
    have hlex : List.Lex (· < ·) (strftimeYMD d1) (strftimeYMD d2) :=
      strftimeYMD_lt hy hm hd hlt
    rw [h1, h2] at hlex
    have hlt' : s1 < s2 := hlex
    exact absurd (lt_of_lt_of_le hlt' hle) (lt_irrefl s1)

/-- Witness for claim C6 at `today = 2026-10-12` with day periods `[365, 30]`
and year periods `[1]`. -/
theorem claim_C6_witness :
    List.Sorted descLabel (get_dates ⟨2026, 10, 12⟩ [365, 30] [1])
    ∧ (get_dates ⟨2026, 10, 12⟩ [365, 30] [1]).length
        = ([365, 30] : List ℤ).length + ([1] : List ℤ).length
    ∧ List.Pairwise
        (fun s1 s2 => ∀ d1 d2 : CivilDate,
          d2.year ≤ 9999 → d2.month ≤ 99 → d2.day ≤ 99 →
          strftimeYMD d1 = s1 → strftimeYMD d2 = s2 → ¬ dateLt d1 d2)
        (get_dates ⟨2026, 10, 12⟩ [365, 30] [1]) :=
  claim_C6_sorted_most_recent_first ⟨2026, 10, 12⟩ [365, 30] [1]

/-- Counterexample to claim C6 as stated: duplicates are not removed by the
sort. With two identical day-count specifiers `[0, 0]` both resolve to
`today`, and the resolved list contains the same date twice. -/
theorem claim_C6_counterexample : ¬ (get_dates ⟨2026, 10, 12⟩ [0, 0] []).Nodup := by
  decide

/-- When every ticker's current-price lookup succeeds, the fetch loop of
`get_prices` returns one row per ticker, in input order, carrying exactly
the fetched values, and logs one diagnostic entry per empty (ticker, date)
query. -/
theorem fetchRows_eq (history : String → ℤ → ℤ → Option ℚ) (info : String → Option ℚ)
    (dates : List ℤ) (tickers : List String) (h : ∀ t ∈ tickers, (info t).isSome) :
    fetchRows history info dates tickers = Except.ok
      (tickers.map (fun t =>
        ⟨t, (info t).getD 0, dates.map (fun d => history t d (d + 1))⟩),
       tickers.flatMap (fun t => dates.filterMap (fun d =>
         if (history t d (d + 1)).isNone then some (mkLog t d) else none))) := by
  induction tickers with
  | nil => rfl
  | cons t ts ih =>
    have ht : (info t).isSome := h t (List.mem_cons_self t ts)
    obtain ⟨c, hc⟩ := Option.isSome_iff_exists.mp ht
    have hts := ih (fun t' ht' => h t' (List.mem_cons_of_mem t ht'))
    unfold fetchRows
    rw [hc, hts]
    simp [hc]

/-- Labels of the DataFrame assembled by `get_prices`: `ticker`, the
current-price label, then each date's label suffixed with `close`. -/
theorem mkPricesTable_labels (curLabel : List Char) (dateLabels : List (List Char))
    (rows : List PRow) :
    (mkPricesTable curLabel dateLabels rows).map Prod.fst
      = "ticker".data :: curLabel :: dateLabels.map (fun l => l ++ closeSuffix) := by
  unfold mkPricesTable
  simp only [List.map_cons, List.map_map]
  have hco : (Prod.fst ∘ fun p : ℕ × List Char => (p.2 ++ closeSuffix,
      rows.map (fun r => optCell ((r.closes.get? p.1).getD none))))
      = (fun l : List Char => l ++ closeSuffix) ∘ Prod.snd := rfl
  rw [hco, ← List.map_map, List.enum_map_snd]

/-- Claim C3: an empty provider result for one (ticker, date) interval
`[d, d+1)` is never fatal: `get_prices` still succeeds, records the missing
marker for that slot, logs the diagnostic entry whose link timestamps span
the date minus 3 days to the date plus 3 days, keeps the date's column label
unchanged, and still populates the ticker's other slots and its current
price. -/
theorem claim_C3_missing_close_not_fatal (history : String → ℤ → ℤ → Option ℚ)
    (info : String → Option ℚ) (curLabel : List Char) (dateLabels : List (List Char))
    (dates : List ℤ) (tickers : List String) (t : String) (d : ℤ) (i j : ℕ)
    (hinfo : ∀ t' ∈ tickers, (info t').isSome)
    (ht : tickers.get? i = some t) (hd : dates.get? j = some d)
    (hmiss : history t d (d + 1) = none) :
    ∃ rows logs, get_prices history info curLabel dateLabels dates tickers
        = Except.ok (mkPricesTable curLabel dateLabels rows, logs)
      ∧ mkLog t d ∈ logs
      ∧ (∃ r, rows.get? i = some r ∧ r.ticker = t
          ∧ r.closes = dates.map (fun d' => history t d' (d' + 1))
          ∧ r.closes.get? j = some none
          ∧ ∃ c, info t = some c ∧ r.current = c)
      ∧ (mkPricesTable curLabel dateLabels rows).map Prod.fst
          = "ticker".data :: curLabel :: dateLabels.map (fun l => l ++ closeSuffix) := by
  refine ⟨tickers.map (fun t' =>
      ⟨t', (info t').getD 0, dates.map (fun d' => history t' d' (d' + 1))⟩),
    tickers.flatMap (fun t' => dates.filterMap (fun d' =>
      if (history t' d' (d' + 1)).isNone then some (mkLog t' d') else none)),
    ?_, ?_, ?_, mkPricesTable_labels curLabel dateLabels _⟩
  · unfold get_prices
    rw [fetchRows_eq history info dates tickers hinfo]
  · refine List.mem_flatMap.mpr ⟨t, List.get?_mem ht, ?_⟩
    refine List.mem_filterMap.mpr ⟨d, List.get?_mem hd, ?_⟩
    rw [hmiss]
    rfl
  · refine ⟨⟨t, (info t).getD 0, dates.map (fun d' => history t d' (d' + 1))⟩, ?_, rfl, rfl, ?_, ?_⟩
    · rw [List.get?_map, ht]
      rfl
    · simp only [List.get?_map, hd, Option.map_some']
      rw [hmiss]
    · obtain ⟨c, hc⟩ := Option.isSome_iff_exists.mp (hinfo t (List.get?_mem ht))
      exact ⟨c, hc, by rw [hc]; rfl⟩

/-- Witness for claim C3: one ticker `A`, dates `[0, 5]`, where the provider
is empty exactly on the interval `[5, 6)` and the current price is 7. -/
theorem claim_C3_witness :
    ∃ rows logs,
      get_prices (fun _ d _ => if d = 5 then none else some 3) (fun _ => some 7)
          "cur".data ["a".data, "b".data] [0, 5] ["A"]
        = Except.ok (mkPricesTable "cur".data ["a".data, "b".data] rows, logs)
      ∧ mkLog "A" 5 ∈ logs
      ∧ (∃ r, rows.get? 0 = some r ∧ r.ticker = "A"
          ∧ r.closes = ([0, 5] : List ℤ).map
              (fun d' => (fun _ d (_ : ℤ) => if d = 5 then none else some (3 : ℚ)) "A" d' (d' + 1))
          ∧ r.closes.get? 1 = some none
          ∧ ∃ c, (fun _ => some (7 : ℚ)) "A" = some c ∧ r.current = c)
      ∧ (mkPricesTable "cur".data ["a".data, "b".data] rows).map Prod.fst
          = "ticker".data :: "cur".data
              :: (["a".data, "b".data] : List (List Char)).map (fun l => l ++ closeSuffix) :=
  claim_C3_missing_close_not_fatal (fun _ d _ => if d = 5 then none else some 3)
    (fun _ => some 7) "cur".data ["a".data, "b".data] [0, 5] ["A"] "A" 5 0 1
    (fun t' _ => rfl) rfl rfl (by decide)

/-- An uncaught not-found error on some ticker's current-price lookup makes
the whole fetch loop fail. -/
theorem fetchRows_error (history : String → ℤ → ℤ → Option ℚ) (info : String → Option ℚ)
    (dates : List ℤ) (tickers : List String) (h : ∃ t ∈ tickers, info t = none) :
    ∃ e, fetchRows history info dates tickers = Except.error e := by
  induction tickers with
  | nil =>
    obtain ⟨t, ht, _⟩ := h
    exact absurd ht (List.not_mem_nil t)
  | cons t ts ih =>
    obtain ⟨t', ht', hnone⟩ := h
    cases hit : info t with
    | none =>
      refine ⟨t, ?_⟩
      unfold fetchRows
      rw [hit]
    | some c =>
      have htts : t' ∈ ts := by
        rcases List.mem_cons.mp ht' with rfl | hmem
        · rw [hit] at hnone
          exact absurd hnone (by simp)
        · exact hmem
      obtain ⟨e, he⟩ := ih ⟨t', htts, hnone⟩
      refine ⟨e, ?_⟩
      unfold fetchRows
      rw [hit, he]

/-- Claim C4: if any ticker's live-price lookup raises a not-found error,
the error is not caught: the whole run terminates as an error carrying no
fetched data, and the output file is never written. -/
theorem claim_C4_not_found_fatal (history : String → ℤ → ℤ → Option ℚ)
    (info : String → Option ℚ) (holidays : List ℤ) (dates : List ℤ)
    (tickers : List String) (curLabel : List Char) (inc : Bool)
    (h : ∃ t ∈ tickers, info t = none) :
    (∃ e, mainModel history info holidays dates tickers curLabel inc = Except.error e)
    ∧ writtenCSV history info holidays dates tickers curLabel inc = none := by
  obtain ⟨e, he⟩ := fetchRows_error history info (check_dates holidays dates) tickers h
  have hm : mainModel history info holidays dates tickers curLabel inc = Except.error e := by
    unfold mainModel get_prices
    rw [he]
  exact ⟨⟨e, hm⟩, by unfold writtenCSV; rw [hm]; rfl⟩

/-- Witness for claim C4: a provider where every live-price lookup raises,
one ticker `A`. -/
theorem claim_C4_witness :
    (∃ e, mainModel (fun _ _ _ => none) (fun _ => none) [] [0] ["A"] [] false
        = Except.error e)
    ∧ writtenCSV (fun _ _ _ => none) (fun _ => none) [] [0] ["A"] [] false = none :=
  claim_C4_not_found_fatal (fun _ _ _ => none) (fun _ => none) [] [0] ["A"] [] false
    ⟨"A", List.mem_singleton.mpr rfl, rfl⟩

/-- Claim C10: the period-header step returns its input table unchanged —
identical columns, rows and values. It computes human-readable period labels
from the column dates, but the statement that would attach them (source line
197) is commented out, so no period-header row ever appears in the final
output. -/
theorem claim_C10_period_headers_identity : ∀ df : Table, append_period_headers df = df :=
  fun _ => rfl

/-- Scanning a block free of the pattern's first character leaves the block
unchanged, and the replacement scan continues after it. -/
theorem replaceAllFuel_append (p : Char) (ps repl : List Char) (s : List Char) :
    ∀ d : List Char, p ∉ d →
      replaceAllFuel p ps repl (d ++ s).length (d ++ s)
        = d ++ replaceAllFuel p ps repl s.length s := by
  intro d
  induction d with
  | nil => intro _; rfl
  | cons a as ih =>
    intro hd
    have hpa : (p == a) = false :=
      beq_eq_false_iff_ne.mpr (fun h => hd (h ▸ List.mem_cons_self a as))
    have hcond : beginsWith (p :: ps) (a :: (as ++ s)) = false := by
      unfold beginsWith
      rw [hpa]
      rfl
    show replaceAllFuel p ps repl ((as ++ s).length + 1) (a :: (as ++ s))
      = (a :: as) ++ replaceAllFuel p ps repl s.length s
    simp only [replaceAllFuel, hcond, Bool.false_eq_true, if_false, List.cons_append]
    rw [ih (fun h => hd (List.mem_cons_of_mem a h))]

/-- Replacing `close` by `return` in a label `d ++ " close"` whose stem does
not contain the letter `c` yields `d ++ " return"`. -/
theorem replaceAll_close_label (d : List Char) (hd : 'c' ∉ d) :
    replaceAll "close".data "return".data (d ++ closeSuffix) = d ++ " return".data := by
  have hsplit : d ++ closeSuffix = (d ++ [' ']) ++ "close".data := by
    rw [List.append_assoc]
    rfl
  have hmem : 'c' ∉ d ++ [' '] := by
    intro h
    rcases List.mem_append.mp h with h | h
    · exact hd h
    · simp at h
  have hpat : replaceAll "close".data "return".data ((d ++ [' ']) ++ "close".data)
      = replaceAllFuel 'c' "lose".data "return".data
          ((d ++ [' ']) ++ "close".data).length ((d ++ [' ']) ++ "close".data) := rfl
  rw [hsplit, hpat, replaceAllFuel_append 'c' "lose".data "return".data "close".data _ hmem]
  rw [List.append_assoc]
  congr 1

/-- The `[2::2]` slice of an interleaved pair list is the list of first
components. -/
theorem everyOther_pairs {α β : Type} (f g : α → β) :
    ∀ l : List α, everyOther (l.flatMap (fun d => [f d, g d])) = l.map f := by
  intro l
  induction l with
  | nil => rfl
  | cons d l ih =>
    rw [List.flatMap_cons]
    show everyOther (f d :: g d :: l.flatMap (fun d => [f d, g d])) = _
    unfold everyOther
    rw [ih]
    rfl

/-- The `[3::2]` slice of an interleaved pair list is the list of second
components. -/
theorem everyOther_pairs_tail {α β : Type} (f g : α → β) :
    ∀ l : List α, everyOther ((l.flatMap (fun d => [f d, g d])).drop 1) = l.map g := by
  intro l
  induction l with
  | nil => rfl
  | cons d l ih =>
    cases l with
    | nil => rfl
    | cons d' l' =>
      have ih' : everyOther (g d' :: l'.flatMap (fun d => [f d, g d]))
          = g d' :: l'.map g := by exact ih
      show everyOther (g d :: f d' :: (g d' :: l'.flatMap (fun d => [f d, g d])))
        = g d :: g d' :: l'.map g
      rw [show everyOther (g d :: f d' :: (g d' :: l'.flatMap (fun d => [f d, g d])))
          = g d :: everyOther (g d' :: l'.flatMap (fun d => [f d, g d])) from rfl, ih']

/-- `df[lab]` keeps the requested label. -/
theorem selectCol_fst (df : Table) (lab : List Char) : (selectCol df lab).1 = lab := by
  unfold selectCol
  cases hf : df.find? (fun col => col.1 == lab) with
  | none => rfl
  | some col =>
    have h := List.find?_some hf
    have : col.1 = lab := by
      simpa using h
    simp [this]

/-- `df[labels]` carries exactly the requested labels, in order. -/
theorem selectCols_fst (df : Table) (labels : List (List Char)) :
    (selectCols df labels).map Prod.fst = labels := by
  unfold selectCols
  rw [List.map_map]
  have : (Prod.fst ∘ selectCol df) = fun lab => (selectCol df lab).1 := rfl
  rw [this]
  exact List.map_congr_left (fun lab _ => selectCol_fst df lab) |>.trans (List.map_id _)

/-- Ordered insertion by label commutes with projecting columns to their
labels. -/
theorem orderedInsert_label_fst (a : List Char × List Cell) :
    ∀ l : Table, (List.orderedInsert (fun a b => descLabel a.1 b.1) a l).map Prod.fst
      = List.orderedInsert descLabel a.1 (l.map Prod.fst) := by
  intro l
  induction l with
  | nil => rfl
  | cons b l ih =>
    simp only [List.orderedInsert, List.map_cons]
    by_cases h : descLabel a.1 b.1
    · rw [if_pos h, if_pos h]
      rfl
    · rw [if_neg h, if_neg h]
      simp only [List.map_cons]
      rw [ih]

/-- Sorting columns by label commutes with projecting columns to their
labels. -/
theorem insertionSort_label_fst :
    ∀ l : Table, (List.insertionSort (fun a b => descLabel a.1 b.1) l).map Prod.fst
      = List.insertionSort descLabel (l.map Prod.fst) := by
  intro l
  induction l with
  | nil => rfl
  | cons a l ih =>
    simp only [List.insertionSort, List.map_cons]
    rw [orderedInsert_label_fst, ih]

/-- A label starting with a strictly smaller character sorts strictly
first. -/
theorem descLabel_of_head_lt {c c' : Char} (h : c < c') (s t : List Char) :
    descLabel (c' :: t) (c :: s) :=
  le_of_lt (List.Lex.rel h)

/-- Digits and the hyphen precede the letter `t`. -/
theorem headChar_lt_t {c : Char} (hc : c.isDigit ∨ c = '-') : c < 't' := by
  rcases hc with h | rfl
  · have h2 : c ≤ '9' := by
      unfold Char.isDigit at h
      simp only [Bool.and_eq_true, decide_eq_true_eq] at h
      exact h.2
    exact lt_of_le_of_lt h2 (by decide)
  · decide

/-- The interleaved (return, close) label blocks of strictly descending
dates are sorted in descending label order. -/
theorem sorted_pair_labels (ds : List (List Char))
    (hlen : ∀ d ∈ ds, d.length = 10)
    (hdesc : List.Pairwise (fun a b : List Char => b < a) ds) :
    List.Sorted descLabel
      (ds.flatMap (fun d => [d ++ " return".data, d ++ closeSuffix])) := by
  induction ds with
  | nil => exact List.sorted_nil
  | cons d ds ih =>
    rw [List.flatMap_cons]
    have hdd := List.pairwise_cons.mp hdesc
    have hrest : ∀ z ∈ ds.flatMap (fun d => [d ++ " return".data, d ++ closeSuffix]),
        ∃ d' ∈ ds, z = d' ++ " return".data ∨ z = d' ++ closeSuffix := by
      intro z hz
      obtain ⟨d', hd', hz'⟩ := List.mem_flatMap.mp hz
      rcases List.mem_cons.mp hz' with h | hz''
      · exact ⟨d', hd', Or.inl h⟩
      rcases List.mem_cons.mp hz'' with h | h
      · exact ⟨d', hd', Or.inr h⟩
      · exact absurd h (List.not_mem_nil z)
    have hcross : ∀ d' ∈ ds, ∀ x y : List Char, descLabel (d ++ x) (d' ++ y) := by
      intro d' hd' x y
      have hlen' : d'.length = d.length := by
        rw [hlen d' (List.mem_cons_of_mem d hd'), hlen d (List.mem_cons_self d ds)]
      have hx : (d' ++ y : List Char) < d ++ x :=
        lex_append_eqlen hlen' (hdd.1 d' hd') y x
      exact le_of_lt hx
    refine List.pairwise_cons.mpr ⟨?_, List.pairwise_cons.mpr ⟨?_, ?_⟩⟩
    · intro z hz
      rcases List.mem_cons.mp hz with rfl | hz
      · have hx : (d ++ closeSuffix : List Char) < d ++ " return".data :=
          List.Lex.append_left (fun a b : Char => a < b) (by decide) d
        exact le_of_lt hx
      · obtain ⟨d', hd', h | h⟩ := hrest z hz
        · rw [h]
          exact hcross d' hd' _ _
        · rw [h]
          exact hcross d' hd' _ _
    · intro z hz
      obtain ⟨d', hd', h | h⟩ := hrest z hz
      · rw [h]
        exact hcross d' hd' _ _
      · rw [h]
        exact hcross d' hd' _ _
    · exact ih (fun d' hd' => hlen d' (List.mem_cons_of_mem d hd')) hdd.2

/-- Interleaved pair blocks are a permutation of the two mapped lists in
sequence. -/
theorem perm_pair_labels {α β : Type} (f g : α → β) :
    ∀ l : List α, List.Perm (l.map f ++ l.map g) (l.flatMap (fun d => [f d, g d])) := by
  intro l
  induction l with
  | nil => exact List.Perm.refl _
  | cons d l ih =>
    rw [List.flatMap_cons, List.map_cons, List.map_cons]
    show List.Perm (f d :: (l.map f ++ g d :: l.map g))
      (f d :: g d :: l.flatMap (fun d => [f d, g d]))
    refine List.Perm.cons (f d) ?_
    have h1 : List.Perm (l.map f ++ g d :: l.map g) (g d :: (l.map f ++ l.map g)) :=
      List.perm_middle
    exact h1.trans (List.Perm.cons (g d) ih)

/-- A string of digits and hyphens does not contain the letter `c`. -/
theorem no_c_of_digit_hyphen {d : List Char} (h : ∀ c ∈ d, c.isDigit ∨ c = '-') :
    'c' ∉ d := by
  intro hc
  rcases h 'c' hc with h1 | h1
  · exact absurd h1 (by decide)
  · exact absurd h1 (by decide)

/-- Zipping two maps over the same list is a map of pairs. -/
theorem zip_map_same {α β γ : Type} (f : α → β) (g : α → γ) :
    ∀ l : List α, (l.map f).zip (l.map g) = l.map (fun a => (f a, g a)) := by
  intro l
  induction l with
  | nil => rfl
  | cons a l ih => simp only [List.map_cons, List.zip_cons_cons, ih]

/-- Flat-mapping after a map composes the functions. -/
theorem flatMap_map_comp {α β γ : Type} (h : α → β) (k : β → List γ) :
    ∀ l : List α, (l.map h).flatMap k = l.flatMap (fun a => k (h a)) := by
  intro l
  induction l with
  | nil => rfl
  | cons a l ih => simp only [List.map_cons, List.flatMap_cons, ih]

/-- Members of an interleaved pair block come from one of the two maps. -/
theorem mem_pair_flatMap {α β : Type} (f g : α → β) {z : β} {l : List α}
    (hz : z ∈ l.flatMap (fun d => [f d, g d])) :
    ∃ d ∈ l, z = f d ∨ z = g d := by
  obtain ⟨d, hd, hz'⟩ := List.mem_flatMap.mp hz
  rcases List.mem_cons.mp hz' with h | hz''
  · exact ⟨d, hd, Or.inl h⟩
  rcases List.mem_cons.mp hz'' with h | h
  · exact ⟨d, hd, Or.inr h⟩
  · exact absurd h (List.not_mem_nil z)

/-- A label whose 10-character stem is made of digits and hyphens sorts
below the `ticker` label, whatever its tail. -/
theorem ticker_label_top (w : List Char) (hw : w.length = 10)
    (hwc : ∀ c ∈ w, c.isDigit ∨ c = '-') (x : List Char) :
    descLabel "ticker".data (w ++ x) := by
  cases w with
  | nil => simp at hw
  | cons c0 w0 =>
    have hc0 : c0 < 't' := headChar_lt_t (hwc c0 (List.mem_cons_self c0 w0))
    show descLabel ('t' :: "icker".data) (c0 :: (w0 ++ x))
    exact descLabel_of_head_lt hc0 _ _

/-- Claim C9, amended: provided the resolved dates are pairwise distinct and
strictly earlier than the run's date (the situation `get_dates` produces
whenever no specifier is 0 or negative and no two specifiers coincide), the
assembled schema is `ticker`, the wall-clock-timestamped current-price
column, then for each date in most-recent-first order its close-price column
immediately followed by its return column. -/
theorem claim_C9_schema_pairs
    (tickCells curCells : List Cell) (cols : Table)
    (cur today rest : List Char) (ds : List (List Char))
    (hlab : cols.map Prod.fst = ds.map (fun d => d ++ closeSuffix))
    (hlen : ∀ d ∈ ds, d.length = 10)
    (hchar : ∀ d ∈ ds, ∀ c ∈ d, c.isDigit ∨ c = '-')
    (hdesc : List.Pairwise (fun a b : List Char => b < a) ds)
    (hcur : cur = today ++ rest)
    (htlen : today.length = 10)
    (htchar : ∀ c ∈ today, c.isDigit ∨ c = '-')
    (hpast : ∀ d ∈ ds, (d : List Char) < today) :
    (calculate_returns
        (("ticker".data, tickCells) :: (cur, curCells) :: cols)).map Prod.fst
      = "ticker".data :: cur
          :: ds.flatMap (fun d => [d ++ closeSuffix, d ++ " return".data]) := by
  have hretlab : (cols.map (fun col =>
      (replaceAll "close".data "return".data col.1,
       List.zipWith calcCell curCells col.2))).map Prod.fst
      = ds.map (fun d => d ++ " return".data) := by
    rw [List.map_map]
    have h1 : (Prod.fst ∘ fun col : List Char × List Cell =>
        (replaceAll "close".data "return".data col.1,
         List.zipWith calcCell curCells col.2))
        = (fun l => replaceAll "close".data "return".data l) ∘ Prod.fst := rfl
    rw [h1, ← List.map_map, hlab, List.map_map]
    refine List.map_congr_left ?_
    intro d hd
    show replaceAll "close".data "return".data (d ++ closeSuffix) = d ++ " return".data
    exact replaceAll_close_label d (no_c_of_digit_hyphen (hchar d hd))
  have hsortedT : List.Sorted descLabel ("ticker".data :: cur
      :: ds.flatMap (fun d => [d ++ " return".data, d ++ closeSuffix])) := by
    refine List.pairwise_cons.mpr ⟨?_, List.pairwise_cons.mpr
      ⟨?_, sorted_pair_labels ds hlen hdesc⟩⟩
    · intro z hz
      rcases List.mem_cons.mp hz with rfl | hz
      · rw [hcur]
        exact ticker_label_top today htlen htchar rest
      · obtain ⟨d', hd', h | h⟩ := mem_pair_flatMap _ _ hz
        · rw [h]
          exact ticker_label_top d' (hlen d' hd') (hchar d' hd') _
        · rw [h]
          exact ticker_label_top d' (hlen d' hd') (hchar d' hd') _
    · intro z hz
      obtain ⟨d', hd', h | h⟩ := mem_pair_flatMap _ _ hz
      · rw [h, hcur]
        have hx : (d' ++ " return".data : List Char) < today ++ rest :=
          lex_append_eqlen (by rw [hlen d' hd', htlen]) (hpast d' hd') _ _
        exact le_of_lt hx
      · rw [h, hcur]
        have hx : (d' ++ closeSuffix : List Char) < today ++ rest :=
          lex_append_eqlen (by rw [hlen d' hd', htlen]) (hpast d' hd') _ _
        exact le_of_lt hx
  have hperm : List.Perm ("ticker".data :: cur :: (ds.map (fun d => d ++ closeSuffix)
      ++ ds.map (fun d => d ++ " return".data)))
      ("ticker".data :: cur
        :: ds.flatMap (fun d => [d ++ " return".data, d ++ closeSuffix])) := by
    refine List.Perm.cons _ (List.Perm.cons _ ?_)
    exact List.perm_append_comm.trans
      (perm_pair_labels (fun d => d ++ " return".data) (fun d => d ++ closeSuffix) ds)
  have hsortEq : List.insertionSort descLabel ("ticker".data :: cur
      :: (ds.map (fun d => d ++ closeSuffix) ++ ds.map (fun d => d ++ " return".data)))
      = "ticker".data :: cur
          :: ds.flatMap (fun d => [d ++ " return".data, d ++ closeSuffix]) :=
    List.eq_of_perm_of_sorted ((List.perm_insertionSort _ _).trans hperm)
      (List.sorted_insertionSort _ _) hsortedT
  simp only [calculate_returns]
  rw [selectCols_fst]
  have hget : (((("ticker".data, tickCells) :: (cur, curCells) :: cols).get? 1).getD
      ([], [])).2 = curCells := rfl
  have hdrop2 : (("ticker".data, tickCells) :: (cur, curCells) :: cols).drop 2 = cols := rfl
  rw [hget, hdrop2, insertionSort_label_fst]
  have hconcat : ((("ticker".data, tickCells) :: (cur, curCells) :: cols)
      ++ cols.map (fun col => (replaceAll "close".data "return".data col.1,
          List.zipWith calcCell curCells col.2))).map Prod.fst
      = "ticker".data :: cur :: (ds.map (fun d => d ++ closeSuffix)
          ++ ds.map (fun d => d ++ " return".data)) := by
    rw [List.map_append, hretlab]
    simp only [List.map_cons, List.cons_append]
    rw [hlab]
  rw [hconcat, hsortEq]
  simp only [List.drop_succ_cons, List.drop_zero]
  rw [everyOther_pairs (fun d => d ++ " return".data) (fun d => d ++ closeSuffix) ds,
    everyOther_pairs_tail (fun d => d ++ " return".data) (fun d => d ++ closeSuffix) ds]
  rw [zip_map_same (fun d => d ++ closeSuffix) (fun d => d ++ " return".data) ds]
  rw [flatMap_map_comp (fun d => (d ++ closeSuffix, d ++ " return".data))
    (fun p => [p.1, p.2]) ds]
  rfl

/-- Witness for claim C9 (amended): a concrete run dated 2026-10-12 with
resolved dates 2026-09-12 and 2025-10-12. -/
theorem claim_C9_witness :
    (calculate_returns (("ticker".data, [Cell.str "A"])
        :: ("2026-10-12 09:00 price".data, [Cell.num 10])
        :: [("2026-09-12 close".data, [Cell.num 5]),
            ("2025-10-12 close".data, [Cell.num 6])])).map Prod.fst
      = "ticker".data :: "2026-10-12 09:00 price".data
          :: (["2026-09-12".data, "2025-10-12".data] : List (List Char)).flatMap
              (fun d => [d ++ closeSuffix, d ++ " return".data]) :=
  claim_C9_schema_pairs [Cell.str "A"] [Cell.num 10]
    [("2026-09-12 close".data, [Cell.num 5]), ("2025-10-12 close".data, [Cell.num 6])]
    "2026-10-12 09:00 price".data "2026-10-12".data " 09:00 price".data
    ["2026-09-12".data, "2025-10-12".data]
    (by decide) (by decide) (by decide) (by decide) (by decide) (by decide)
    (by decide) (by decide)

/-- Counterexample to claim C9 as stated: when a resolved date equals the
run's own date (period specifier `0` on a trading day — here Monday
2026-10-12), the label `2026-10-12 close` sorts above the current-price
label `2026-10-12 09:00 price`, so the schema comes out as ticker, return,
current price, close rather than ticker, current price, then the (close,
return) pair. -/
theorem claim_C9_counterexample :
    (calculate_returns (mkPricesTable "2026-10-12 09:00 price".data ["2026-10-12".data]
        [⟨"A", 10, [some 5]⟩])).map Prod.fst
      = ["ticker".data, "2026-10-12 return".data, "2026-10-12 09:00 price".data,
         "2026-10-12 close".data]
    ∧ ¬ ((calculate_returns (mkPricesTable "2026-10-12 09:00 price".data ["2026-10-12".data]
        [⟨"A", 10, [some 5]⟩])).map Prod.fst
      = ["ticker".data, "2026-10-12 09:00 price".data, "2026-10-12 close".data,
         "2026-10-12 return".data]) := by
  decide

end HSG
